import Mathlib

/-!
Verification of the spox options-trading library: shallow embedding of the
strike-selection, order-progression, session-parsing and duration-estimation
logic, with theorems checking the specification's claims.

Python `float` values are modelled as `ℚ` (exact arithmetic), Python `int` as
`ℤ`/`ℕ`, Python `str` as `List Char`, and fallible code as `Except Unit` /
`Option`.
-/

deriving instance DecidableEq for Except

namespace Spox

/-- Python's `%` on floats for a positive modulus: `x % y = x - y * floor (x / y)`,
a value in `[0, y)`.  Used by `_get_strike_candidates` (`options/core.py`) and
`PutVerticalBuilder.build` (`options/spread.py`). -/
def pymod (x y : ℚ) : ℚ := x - y * ⌊x / y⌋

theorem pymod_nonneg (x : ℚ) {y : ℚ} (hy : 0 < y) : 0 ≤ pymod x y := by
  have hle : (⌊x / y⌋ : ℚ) ≤ x / y := Int.floor_le (x / y)
  have hmul := mul_le_mul_of_nonneg_left hle (le_of_lt hy)
  rw [mul_div_cancel₀ x (ne_of_gt hy)] at hmul
  unfold pymod
  linarith

theorem pymod_lt (x : ℚ) {y : ℚ} (hy : 0 < y) : pymod x y < y := by
  have h : x / y < ⌊x / y⌋ + 1 := Int.lt_floor_add_one (x / y)
  unfold pymod
  have := (div_lt_iff₀ hy).mp h
  linarith

/-- Option right, from `Right` in `options/core.py` (`CALL = "C"`, `PUT = "P"`). -/
inductive Right where
  | CALL
  | PUT
deriving DecidableEq

/-- `OptionStrategy._get_strike_candidates` (`options/core.py` lines 186-192):
`[start - start % inc - i * inc for i in range(strikes_down)]` for puts and
`[start + start % inc + i * inc for i in range(strikes_down)]` for calls.
The same put-side comprehension appears inline in `PutVerticalBuilder.build`
(`options/spread.py` line 188).  `strikes_down` is `self.spec.strikes_down`;
Python's `range` of a non-positive count is empty, so it is taken as `ℕ`. -/
def getStrikeCandidates (start : ℚ) (right : Right) (inc : ℚ) (strikes_down : ℕ) : List ℚ :=
  match right with
  | .PUT => (List.range strikes_down).map
      (fun i : ℕ => start - pymod start inc - (i : ℚ) * inc)
  | .CALL => (List.range strikes_down).map
      (fun i : ℕ => start + pymod start inc + (i : ℚ) * inc)

theorem sub_pymod_eq_mul_floor (x : ℚ) (y : ℚ) :
    x - pymod x y = y * ⌊x / y⌋ := by
  unfold pymod; ring

theorem getStrikeCandidates_put (start inc : ℚ) (n : ℕ) :
    getStrikeCandidates start .PUT inc n =
      (List.range n).map (fun i : ℕ => start - pymod start inc - (i : ℚ) * inc) := rfl

theorem getStrikeCandidates_call (start inc : ℚ) (n : ℕ) :
    getStrikeCandidates start .CALL inc n =
      (List.range n).map (fun i : ℕ => start + pymod start inc + (i : ℚ) * inc) := rfl

theorem pairwise_map_range_of_lt {f : ℕ → ℚ} {R : ℚ → ℚ → Prop} (n : ℕ)
    (h : ∀ i j : ℕ, i < j → R (f i) (f j)) :
    ((List.range n).map f).Pairwise R := by
  rw [List.pairwise_map]
  exact (List.pairwise_lt_range n).imp (fun hij => h _ _ hij)

/-- Claim C6: for every non-negative reference price, positive increment and
candidate count, put-side candidates are strictly decreasing and each is an
integer multiple of the increment that is at most the reference price, while
call-side candidates are strictly increasing and each is at least the
reference price. -/
theorem strike_candidates_monotone_and_aligned
    (start inc : ℚ) (count : ℕ) (_hs : 0 ≤ start) (hinc : 0 < inc) :
    ((getStrikeCandidates start .PUT inc count).Pairwise (fun a b => b < a) ∧
      ∀ c ∈ getStrikeCandidates start .PUT inc count,
        (∃ k : ℤ, c = (k : ℚ) * inc) ∧ c ≤ start) ∧
    ((getStrikeCandidates start .CALL inc count).Pairwise (fun a b => a < b) ∧
      ∀ c ∈ getStrikeCandidates start .CALL inc count, start ≤ c) := by
  have hmod : 0 ≤ pymod start inc := pymod_nonneg start hinc
  refine ⟨⟨?_, ?_⟩, ?_, ?_⟩
  · rw [getStrikeCandidates_put]
    refine pairwise_map_range_of_lt count ?_
    intro i j hij
    have hcast : (i : ℚ) < (j : ℚ) := by exact_mod_cast hij
    have := mul_lt_mul_of_pos_right hcast hinc
    linarith
  · intro c hc
    rw [getStrikeCandidates_put] at hc
    simp only [List.mem_map, List.mem_range] at hc
    obtain ⟨i, _, rfl⟩ := hc
    constructor
    · refine ⟨⌊start / inc⌋ - (i : ℤ), ?_⟩
      have h := sub_pymod_eq_mul_floor start inc
      push_cast
      linarith
    · have : 0 ≤ (i : ℚ) * inc := mul_nonneg (Nat.cast_nonneg i) (le_of_lt hinc)
      linarith
  · rw [getStrikeCandidates_call]
    refine pairwise_map_range_of_lt count ?_
    intro i j hij
    have hcast : (i : ℚ) < (j : ℚ) := by exact_mod_cast hij
    have := mul_lt_mul_of_pos_right hcast hinc
    linarith
  · intro c hc
    rw [getStrikeCandidates_call] at hc
    simp only [List.mem_map, List.mem_range] at hc
    obtain ⟨i, _, rfl⟩ := hc
    have : 0 ≤ (i : ℚ) * inc := mul_nonneg (Nat.cast_nonneg i) (le_of_lt hinc)
    linarith

/-- Witness for `strike_candidates_monotone_and_aligned` at reference price
101, increment 5 and count 3. -/
theorem strike_candidates_monotone_and_aligned_witness :
    (0 : ℚ) ≤ 101 ∧ (0 : ℚ) < 5 ∧
    (((getStrikeCandidates 101 .PUT 5 3).Pairwise (fun a b => b < a) ∧
      ∀ c ∈ getStrikeCandidates 101 .PUT 5 3,
        (∃ k : ℤ, c = (k : ℚ) * 5) ∧ c ≤ 101) ∧
     ((getStrikeCandidates 101 .CALL 5 3).Pairwise (fun a b => a < b) ∧
      ∀ c ∈ getStrikeCandidates 101 .CALL 5 3, 101 ≤ c)) :=
  ⟨by norm_num, by norm_num,
    strike_candidates_monotone_and_aligned 101 5 3 (by norm_num) (by norm_num)⟩

/-- Claim C3 is refuted by the code: with reference price 101, increment 5 and
count 1, the call-side candidate list is `[102]` (the code computes
`start + start % inc`, adding the remainder instead of rounding up), so the
first candidate is neither a multiple of the increment nor the round-up 105
promised by the claim and by the function's own docstring ("the nearest strike
>= start aligned to inc"). -/
theorem call_candidates_not_aligned_at_101 :
    getStrikeCandidates 101 .CALL 5 1 = [102] ∧
    (¬ ∃ k : ℤ, (102 : ℚ) = (k : ℚ) * 5) ∧
    getStrikeCandidates 101 .CALL 5 1 ≠ [105] := by
  have h1 : getStrikeCandidates 101 .CALL 5 1 = [102] := by
    norm_num [getStrikeCandidates, pymod, List.range_succ]
  refine ⟨h1, ?_, ?_⟩
  · rintro ⟨k, hk⟩
    have h2 : ((k * 5 : ℤ) : ℚ) = ((102 : ℤ) : ℚ) := by push_cast; linarith
    have h3 : (k * 5 : ℤ) = 102 := by exact_mod_cast h2
    omega
  · rw [h1]
    simp

/-- Order status values of the broker API (`ib_async.OrderStatus`); the retry
loop in `OrderManager.limit_buy` only distinguishes `Filled` and `Cancelled`
from the rest. -/
inductive OrderStatus where
  | PendingSubmit
  | ApiPending
  | PreSubmitted
  | Submitted
  | ApiCancelled
  | Cancelled
  | Filled
  | Inactive
deriving DecidableEq

/-- `FillProgression` (`core/orders.py` lines 16-20): retry policy for one
order.  `wait` is a `datetime.time`, modelled by its total seconds. -/
structure FillProgression where
  attempts : ℤ := 3
  waitSeconds : ℚ := 5
  adjustment : ℚ := 1/20
deriving DecidableEq

/-- The `while attempts > 0` retry loop of `OrderManager.limit_buy`
(`core/orders.py` lines 52-76), including the final extra wait / cancel after
the loop.  `status k` is the order status observed after the `k`-th wait;
`a` is the remaining attempt counter, `price` the current `order.lmtPrice`.
Returns (prices submitted by the in-loop `placeOrder` calls in order,
whether `cancelOrder` was called, the returned trade's limit price or `none`). -/
def limitBuyLoop (status : ℕ → OrderStatus) (adj : ℚ) :
    ℕ → ℚ → ℕ → List ℚ × Bool × Option ℚ
  | 0, price, k =>
      if status k = .Filled then ([], false, some price)
      else ([], true, none)
  | a + 1, price, k =>
      if status k = .Filled then ([], false, some price)
      else if status k = .Cancelled then ([], false, none)
      else
        let price' := price - adj
        let r := limitBuyLoop status adj a price' (k + 1)
        (price' :: r.1, r.2)

/-- `OrderManager.limit_buy` (`core/orders.py` lines 36-78): places a limit
buy at `limit`; with a progression policy whose `attempts > 0` it runs the
retry loop, otherwise it returns the trade immediately. -/
def limit_buy (limit : ℚ) (progression : Option FillProgression)
    (status : ℕ → OrderStatus) : List ℚ × Bool × Option ℚ :=
  match progression with
  | some p =>
      if p.attempts > 0 then limitBuyLoop status p.adjustment p.attempts.toNat limit 0
      else ([], false, some limit)
  | none => ([], false, some limit)

theorem limitBuyLoop_never_filled (status : ℕ → OrderStatus) (adj : ℚ)
    (h : ∀ k, status k ≠ .Filled ∧ status k ≠ .Cancelled) :
    ∀ (a : ℕ) (price : ℚ) (k : ℕ),
      limitBuyLoop status adj a price k =
        ((List.range a).map (fun i : ℕ => price - ((i : ℚ) + 1) * adj), true, none) := by
  intro a
  induction a with
  | zero =>
    intro price k
    simp [limitBuyLoop, (h k).1]
  | succ a ih =>
    intro price k
    have hk := h k
    rw [limitBuyLoop, if_neg hk.1, if_neg hk.2]
    simp only [ih (price - adj) (k + 1)]
    rw [List.range_succ_eq_map]
    simp only [List.map_cons, List.map_map, Prod.mk.injEq, List.cons.injEq]
    refine ⟨⟨by push_cast; ring, ?_⟩, trivial⟩
    refine List.map_congr_left ?_
    intro i _
    simp only [Function.comp_apply, Nat.succ_eq_add_one]
    push_cast; ring

/-- Claim C1: with a progression policy whose `attempts = n > 0`, if the order
status never becomes `Filled` or `Cancelled`, `limit_buy` performs exactly `n`
price adjustments, the `i`-th submitting the limit price
`limit - (i+1) * adjustment` (so the last submitted limit is
`limit - n * adjustment`), then cancels the order and returns `none`. -/
theorem limit_buy_progression_exhausts
    (p : FillProgression) (limit : ℚ) (status : ℕ → OrderStatus)
    (hpos : 0 < p.attempts)
    (hnever : ∀ k, status k ≠ .Filled ∧ status k ≠ .Cancelled) :
    limit_buy limit (some p) status =
      ((List.range p.attempts.toNat).map
          (fun i : ℕ => limit - ((i : ℚ) + 1) * p.adjustment), true, none) ∧
    (limit_buy limit (some p) status).1.length = p.attempts.toNat ∧
    (limit_buy limit (some p) status).1.getLast? =
      some (limit - (p.attempts : ℚ) * p.adjustment) := by
  have h := limitBuyLoop_never_filled status p.adjustment hnever p.attempts.toNat limit 0
  have hbuy : limit_buy limit (some p) status =
      ((List.range p.attempts.toNat).map
          (fun i : ℕ => limit - ((i : ℚ) + 1) * p.adjustment), true, none) := by
    rw [limit_buy, if_pos hpos, h]
  refine ⟨hbuy, ?_, ?_⟩
  · rw [hbuy]
    simp
  · rw [hbuy]
    obtain ⟨m, hm⟩ : ∃ m, p.attempts.toNat = m + 1 :=
      ⟨p.attempts.toNat - 1, by omega⟩
    have hcast : ((p.attempts.toNat : ℤ) : ℚ) = (p.attempts : ℚ) := by
      rw [Int.toNat_of_nonneg (le_of_lt hpos)]
    rw [hm, List.range_succ, List.map_append, List.map_cons, List.map_nil,
      List.getLast?_concat]
    have : ((m : ℚ) + 1) = (p.attempts : ℚ) := by
      rw [← hcast, hm]
      push_cast
      ring
    rw [this]

/-- Witness for `limit_buy_progression_exhausts`: 3 attempts, wait 5 s,
adjustment 1/20, initial limit 10, status always `Submitted`. -/
theorem limit_buy_progression_exhausts_witness :
    limit_buy 10 (some ⟨3, 5, 1/20⟩) (fun _ => OrderStatus.Submitted) =
      ([199/20, 99/10, 197/20], true, none) := by
  have h := limit_buy_progression_exhausts ⟨3, 5, 1/20⟩ 10
    (fun _ => OrderStatus.Submitted) (by decide)
    (fun k => ⟨fun hc => OrderStatus.noConfusion hc, fun hc => OrderStatus.noConfusion hc⟩)
  rw [h.1]
  have h3 : Int.toNat 3 = 3 := rfl
  rw [h3]
  norm_num [List.range_succ]

/-- Model greeks attached to a ticker (`ticker.modelGreeks`); only the delta
is consulted by the selection logic. -/
structure Greeks where
  delta : ℚ
deriving DecidableEq

/-- A quoted option candidate as consumed by `_select_strike_delta`
(`options/core.py` lines 279-287) and the inline copy in
`PutVerticalBuilder.build` (`options/spread.py` lines 197-200): the contract's
strike, the bid price, and the model greeks, absent until they arrive. -/
structure Ticker where
  strike : ℚ
  bid : ℚ
  modelGreeks : Option Greeks
deriving DecidableEq

/-- Python tuple `<` on the 2-tuples used as the `min` key: lexicographic. -/
def keyLt (a b : ℚ × ℚ) : Prop := a.1 < b.1 ∨ (a.1 = b.1 ∧ a.2 < b.2)

/-- Lexicographic `≤` on the key tuples. -/
def keyLe (a b : ℚ × ℚ) : Prop := a.1 < b.1 ∨ (a.1 = b.1 ∧ a.2 ≤ b.2)

instance (a b : ℚ × ℚ) : Decidable (keyLt a b) := by unfold keyLt; infer_instance

instance (a b : ℚ × ℚ) : Decidable (keyLe a b) := by unfold keyLe; infer_instance

theorem keyLe_refl (a : ℚ × ℚ) : keyLe a a := Or.inr ⟨rfl, le_refl _⟩

theorem keyLe_of_keyLt {a b : ℚ × ℚ} (h : keyLt a b) : keyLe a b := by
  rcases h with h | ⟨h1, h2⟩
  · exact Or.inl h
  · exact Or.inr ⟨h1, le_of_lt h2⟩

theorem keyLe_of_not_keyLt {a b : ℚ × ℚ} (h : ¬ keyLt a b) : keyLe b a := by
  unfold keyLt at h
  push_neg at h
  rcases lt_trichotomy b.1 a.1 with h1 | h1 | h1
  · exact Or.inl h1
  · exact Or.inr ⟨h1, h.2 h1.symm⟩
  · exact absurd h1 (not_lt.mpr h.1)

theorem keyLe_trans {a b c : ℚ × ℚ} (h1 : keyLe a b) (h2 : keyLe b c) : keyLe a c := by
  rcases h1 with h1 | ⟨h1, h1'⟩ <;> rcases h2 with h2 | ⟨h2, h2'⟩
  · exact Or.inl (lt_trans h1 h2)
  · exact Or.inl (h2 ▸ h1)
  · exact Or.inl (h1 ▸ h2)
  · exact Or.inr ⟨h1.trans h2, le_trans h1' h2'⟩

/-- Python's `min(iterable, key=...)`: returns `none` on an empty iterable
(modelling the `ValueError`), otherwise folds left keeping the earliest
element whose key is minimal (replacement only on strictly smaller key). -/
def pyMinBy (key : Ticker → ℚ × ℚ) : List Ticker → Option Ticker
  | [] => none
  | x :: xs => some (xs.foldl (fun b t => if keyLt (key t) (key b) then t else b) x)

/-- The `min` key of `_select_strike_delta`:
`(abs (t.modelGreeks.delta - target_delta), -t.bid)`.  It is only ever applied
to tickers whose greeks are present; the `none` branch is unreachable junk. -/
def tickerKey (target : ℚ) (t : Ticker) : ℚ × ℚ :=
  match t.modelGreeks with
  | some g => (|g.delta - target|, -t.bid)
  | none => (0, 0)

/-- `OptionStrategy._select_strike_delta` (`options/core.py` lines 283-287)
and the identical selection in `PutVerticalBuilder.build`
(`options/spread.py` lines 197-200):
`min((t for t in tickers if t.modelGreeks), key=...)`. -/
def selectStrikeDelta (target : ℚ) (tickers : List Ticker) : Option Ticker :=
  pyMinBy (tickerKey target) (tickers.filter (fun t => t.modelGreeks.isSome))

theorem pyMinBy_foldl_mem (key : Ticker → ℚ × ℚ) (l : List Ticker) (b : Ticker) :
    l.foldl (fun b t => if keyLt (key t) (key b) then t else b) b ∈ b :: l := by
  induction l generalizing b with
  | nil => simp [List.foldl]
  | cons x xs ih =>
    rw [List.foldl_cons]
    rcases List.mem_cons.mp (ih (if keyLt (key x) (key b) then x else b)) with h | h
    · rw [h]
      by_cases hx : keyLt (key x) (key b)
      · rw [if_pos hx]
        exact List.mem_cons_of_mem _ (List.mem_cons_self x xs)
      · rw [if_neg hx]
        exact List.mem_cons_self b (x :: xs)
    · exact List.mem_cons_of_mem _ (List.mem_cons_of_mem _ h)

theorem pyMinBy_foldl_le (key : Ticker → ℚ × ℚ) (l : List Ticker) (b : Ticker) :
    ∀ u ∈ b :: l,
      keyLe (key (l.foldl (fun b t => if keyLt (key t) (key b) then t else b) b)) (key u) := by
  induction l generalizing b with
  | nil =>
    intro u hu
    rcases List.mem_cons.mp hu with rfl | h
    · exact keyLe_refl _
    · exact absurd h (List.not_mem_nil u)
  | cons x xs ih =>
    intro u hu
    rw [List.foldl_cons]
    have hstep1 : keyLe (key (if keyLt (key x) (key b) then x else b)) (key b) := by
      by_cases hx : keyLt (key x) (key b)
      · rw [if_pos hx]; exact keyLe_of_keyLt hx
      · rw [if_neg hx]; exact keyLe_refl _
    have hstep2 : keyLe (key (if keyLt (key x) (key b) then x else b)) (key x) := by
      by_cases hx : keyLt (key x) (key b)
      · rw [if_pos hx]; exact keyLe_refl _
      · rw [if_neg hx]; exact keyLe_of_not_keyLt hx
    have hres := ih (if keyLt (key x) (key b) then x else b)
    have hhead := hres _ (List.mem_cons_self _ xs)
    rcases List.mem_cons.mp hu with rfl | h
    · exact keyLe_trans hhead hstep1
    · rcases List.mem_cons.mp h with rfl | h2
      · exact keyLe_trans hhead hstep2
      · exact hres u (List.mem_cons_of_mem _ h2)

theorem pyMinBy_spec (key : Ticker → ℚ × ℚ) (l : List Ticker) :
    (l = [] ↔ pyMinBy key l = none) ∧
    ∀ t, pyMinBy key l = some t → t ∈ l ∧ ∀ u ∈ l, keyLe (key t) (key u) := by
  cases l with
  | nil =>
    refine ⟨by simp [pyMinBy], ?_⟩
    intro t ht
    exact absurd ht (by simp [pyMinBy])
  | cons x xs =>
    refine ⟨by simp [pyMinBy], ?_⟩
    intro t ht
    have hsome := Option.some.inj ht
    constructor
    · rw [← hsome]
      exact pyMinBy_foldl_mem key xs x
    · intro u hu
      rw [← hsome]
      exact pyMinBy_foldl_le key xs x u hu

/-- Claim C2: delta-based selection returns `none` (modelling the `ValueError`
from `min` on an empty iterable) exactly when no candidate has greeks, and
any returned candidate carries greeks and minimizes
`(abs (delta - target), -bid)` lexicographically among all candidates whose
greeks are present (so among equal distances the highest bid wins). -/
theorem select_by_delta_minimizes (target : ℚ) (tickers : List Ticker) :
    (tickers.filter (fun t => t.modelGreeks.isSome) = [] ↔
      selectStrikeDelta target tickers = none) ∧
    ∀ t, selectStrikeDelta target tickers = some t →
      t ∈ tickers.filter (fun t => t.modelGreeks.isSome) ∧
      ∀ u ∈ tickers.filter (fun t => t.modelGreeks.isSome),
        keyLe (tickerKey target t) (tickerKey target u) :=
  pyMinBy_spec (tickerKey target) (tickers.filter (fun t => t.modelGreeks.isSome))

/-- Witness for `select_by_delta_minimizes`, the spec's end-to-end scenario:
strikes 100, 95, 90 with deltas −0.10, −0.18, −0.30, target −0.15 — strike 95
is selected; and with greeks absent everywhere the selection fails. -/
theorem select_by_delta_minimizes_witness :
    (selectStrikeDelta (-3/20)
        [⟨100, 2, some ⟨-1/10⟩⟩, ⟨95, 3, some ⟨-9/50⟩⟩, ⟨90, 4, some ⟨-3/10⟩⟩]).map
        Ticker.strike = some 95 ∧
    selectStrikeDelta (-3/20) [⟨100, 2, none⟩, ⟨95, 3, none⟩] = none := by
  have c1 : keyLt (tickerKey (-3/20) ⟨95, 3, some ⟨-9/50⟩⟩)
      (tickerKey (-3/20) ⟨100, 2, some ⟨-1/10⟩⟩) := by
    refine Or.inl ?_
    show |(-9/50 : ℚ) - (-3/20)| < |(-1/10 : ℚ) - (-3/20)|
    norm_num [abs_of_pos]
  have c2 : ¬ keyLt (tickerKey (-3/20) ⟨90, 4, some ⟨-3/10⟩⟩)
      (tickerKey (-3/20) ⟨95, 3, some ⟨-9/50⟩⟩) := by
    rintro (h | ⟨h, -⟩)
    · revert h
      show ¬ (|(-3/10 : ℚ) - (-3/20)| < |(-9/50 : ℚ) - (-3/20)|)
      norm_num [abs_of_pos, abs_of_neg]
    · revert h
      show ¬ (|(-3/10 : ℚ) - (-3/20)| = |(-9/50 : ℚ) - (-3/20)|)
      norm_num [abs_of_pos, abs_of_neg]
  have hsel : selectStrikeDelta (-3/20)
      [⟨100, 2, some ⟨-1/10⟩⟩, ⟨95, 3, some ⟨-9/50⟩⟩, ⟨90, 4, some ⟨-3/10⟩⟩] =
      some ⟨95, 3, some ⟨-9/50⟩⟩ := by
    rw [selectStrikeDelta]
    have hfil : List.filter (fun t => t.modelGreeks.isSome)
        [(⟨100, 2, some ⟨-1/10⟩⟩ : Ticker), ⟨95, 3, some ⟨-9/50⟩⟩, ⟨90, 4, some ⟨-3/10⟩⟩] =
        [⟨100, 2, some ⟨-1/10⟩⟩, ⟨95, 3, some ⟨-9/50⟩⟩, ⟨90, 4, some ⟨-3/10⟩⟩] := rfl
    rw [hfil, pyMinBy, List.foldl_cons, if_pos c1, List.foldl_cons, if_neg c2,
      List.foldl_nil]
  have hchecks := (select_by_delta_minimizes (-3/20)
      [⟨100, 2, some ⟨-1/10⟩⟩, ⟨95, 3, some ⟨-9/50⟩⟩, ⟨90, 4, some ⟨-3/10⟩⟩]).2
      _ hsel
  refine ⟨by rw [hsel]; rfl, ?_⟩
  exact ((select_by_delta_minimizes (-3/20) [⟨100, 2, none⟩, ⟨95, 3, none⟩]).1).mp rfl

/-- Bar sizes supported by `BarSize` in `core/filter.py`. -/
inductive BarSize where
  | SEC_5
  | SEC_15
  | MIN_1
  | MIN_5
  | MIN_15
  | HOUR_1
  | DAY_1
deriving DecidableEq

/-- The `BAR_SECONDS` table (`core/filter.py` lines 41-49). -/
def barSeconds : BarSize → ℕ
  | .SEC_5 => 5
  | .SEC_15 => 15
  | .MIN_1 => 60
  | .MIN_5 => 5 * 60
  | .MIN_15 => 15 * 60
  | .HOUR_1 => 60 * 60
  | .DAY_1 => 24 * 60 * 60

/-- `HistorySpec` (`core/filter.py` lines 52-58); only the fields consumed by
`duration_str` are kept. -/
structure HistorySpec where
  bar_size : BarSize
  length : ℕ
  warmup_bars : ℕ := 50
deriving DecidableEq

/-- An IB duration token: `DurationTok.S n` models the string `"<n> S"`, and
likewise for days, weeks, months and years. -/
inductive DurationTok where
  | S (n : ℕ)
  | D (n : ℕ)
  | W (n : ℕ)
  | M (n : ℕ)
  | Y (n : ℕ)
deriving DecidableEq

/-- `math.ceil (a / b)` for naturals (`b > 0`). -/
def ceilDiv (a b : ℕ) : ℕ := (a + b - 1) / b

/-- `HistorySpec.duration_str` (`core/filter.py` lines 60-90).
`int (days * 1.6)` is modelled as `8 * days / 5` (floor); the float product
`days * 1.6` truncates to exactly that value for every `days < 5 * 10^14`. -/
def duration_str (h : HistorySpec) : DurationTok :=
  let bars_needed := h.length + h.warmup_bars
  let seconds_needed := bars_needed * barSeconds h.bar_size
  if seconds_needed ≤ 60 * 60 then .S seconds_needed
  else
    let days := ceilDiv seconds_needed (24 * 60 * 60)
    let days := 8 * days / 5 + 2
    if days ≤ 6 then .D days
    else if days ≤ 60 then .W (ceilDiv days 7)
    else if days ≤ 365 then .M (ceilDiv days 30)
    else .Y (ceilDiv days 365)

/-- The duration estimator as worded by the claim: seconds when the required
seconds are at most 3600, otherwise days `= ceil (seconds / 86400)` padded to
`int (days * 1.6) + 2`, rendered as days / weeks / months / years by the
thresholds 6, 60 and 365. -/
def durationStrSpec (h : HistorySpec) : DurationTok :=
  let requiredSeconds := (h.length + h.warmup_bars) * barSeconds h.bar_size
  if requiredSeconds ≤ 3600 then .S requiredSeconds
  else
    let padded := 8 * ceilDiv requiredSeconds 86400 / 5 + 2
    if padded ≤ 6 then .D padded
    else if padded ≤ 60 then .W (ceilDiv padded 7)
    else if padded ≤ 365 then .M (ceilDiv padded 30)
    else .Y (ceilDiv padded 365)

/-- Claim C8: `duration_str` implements exactly the threshold scheme worded by
the spec, and on the spec's two instances: 55 required 1-minute bars yield
`"3300 S"` and 400 required daily bars yield a years token (here `"2 Y"`). -/
theorem duration_str_matches_spec :
    (∀ h : HistorySpec, duration_str h = durationStrSpec h) ∧
    duration_str ⟨.MIN_1, 5, 50⟩ = .S 3300 ∧
    duration_str ⟨.DAY_1, 350, 50⟩ = .Y 2 := by
  refine ⟨fun h => rfl, by decide, by decide⟩

/-- `VerticalSpec` (`options/core.py` lines 42-82): a plain frozen dataclass;
no validation is performed on construction. -/
structure VerticalSpec where
  target_delta : ℚ
  width : ℚ
  short_dte : ℤ := 0
  long_dte : ℤ := 0
  inc : ℤ := 5
  strikes_down : ℤ := 20
deriving DecidableEq

/-- Construction of a `VerticalSpec` giving only the two required fields, the
rest taking the dataclass defaults (`short_dte=0, long_dte=0, inc=5,
strikes_down=20`). -/
def mkVerticalSpec (target_delta width : ℚ) : VerticalSpec :=
  ⟨target_delta, width, 0, 0, 5, 20⟩

/-- Claim C9 fails: `VerticalSpec` is constructible with `width = -1` and
`strikes_down = 0`, violating the claimed invariant — the dataclass performs
no validation. -/
theorem vertical_spec_invariant_not_enforced :
    ¬ (0 < (⟨-3/20, -1, 0, 0, 5, 0⟩ : VerticalSpec).width ∧
       1 ≤ (⟨-3/20, -1, 0, 0, 5, 0⟩ : VerticalSpec).strikes_down) := by
  rintro ⟨h1, -⟩
  have hneg : ¬ ((0 : ℚ) < -1) := by norm_num
  exact hneg h1

/-- Claim C9 amended: the invariant `width > 0 ∧ strikes_down ≥ 1` is not
enforced by construction, but every instance built with the dataclass defaults
and a positive width satisfies it (`strikes_down` defaults to 20). -/
theorem vertical_spec_defaults_satisfy_invariant (td w : ℚ) (hw : 0 < w) :
    0 < (mkVerticalSpec td w).width ∧ 1 ≤ (mkVerticalSpec td w).strikes_down :=
  ⟨hw, by norm_num [mkVerticalSpec]⟩

/-- Witness for `vertical_spec_defaults_satisfy_invariant` at target delta
−0.15 and width 50. -/
theorem vertical_spec_defaults_satisfy_invariant_witness :
    (0 : ℚ) < 50 ∧
    (0 < (mkVerticalSpec (-3/20) 50).width ∧ 1 ≤ (mkVerticalSpec (-3/20) 50).strikes_down) :=
  ⟨by norm_num, vertical_spec_defaults_satisfy_invariant (-3/20) 50 (by norm_num)⟩

/-- The polling loop of `wait_for_greeks` (`options/core.py` lines 142-149 and
the identical copy in `options/spread.py` lines 122-129):
`while loop.time() < deadline: if all(t.modelGreeks ...): return True;
sleep(0.05)`, then `return False`.  Each ticker is modelled by its
`modelGreeks` field; time advances by the 0.05 s sleep per iteration; `fuel`
bounds the recursion and is chosen large enough at the call site. -/
def waitForGreeksLoop (tickers : List (Option Greeks)) (deadline : ℚ) :
    ℕ → ℚ → Bool
  | 0, _ => false
  | f + 1, now =>
      if now < deadline then
        if tickers.all (fun t => t.isSome) then true
        else waitForGreeksLoop tickers deadline f (now + 1/20)
      else false

/-- `wait_for_greeks(tickers, timeout)` starting at clock value `t0`:
`deadline = loop.time() + timeout`.  The fuel `⌈timeout * 20⌉ + 1` strictly
exceeds the number of 0.05 s sleeps that fit before the deadline. -/
def wait_for_greeks (tickers : List (Option Greeks)) (timeout : ℚ) (t0 : ℚ) : Bool :=
  waitForGreeksLoop tickers (t0 + timeout) (⌈timeout * 20⌉.toNat + 1) t0

/-- Claim C10: with `timeout ≤ 0`, `wait_for_greeks` returns `false` even when
every ticker already has greeks, because the all-present check only runs while
the clock is strictly before the deadline; with `timeout > 0` and all greeks
present it returns `true` immediately. -/
theorem wait_for_greeks_nonpos_timeout (tickers : List (Option Greeks))
    (timeout t0 : ℚ) :
    (timeout ≤ 0 → wait_for_greeks tickers timeout t0 = false) ∧
    (0 < timeout → tickers.all (fun t => t.isSome) = true →
      wait_for_greeks tickers timeout t0 = true) := by
  constructor
  · intro hle
    rw [wait_for_greeks, waitForGreeksLoop]
    rw [if_neg (by linarith)]
  · intro hpos hall
    rw [wait_for_greeks, waitForGreeksLoop]
    rw [if_pos (by linarith), hall]
    rfl

/-- Witness for `wait_for_greeks_nonpos_timeout`: one ticker with greeks
present, timeout 0 (returns `false`) and timeout 3 (returns `true`). -/
theorem wait_for_greeks_nonpos_timeout_witness :
    wait_for_greeks [some ⟨1/2⟩] 0 0 = false ∧
    wait_for_greeks [some ⟨1/2⟩] 3 0 = true :=
  ⟨(wait_for_greeks_nonpos_timeout [some ⟨1/2⟩] 0 0).1 (le_refl 0),
   (wait_for_greeks_nonpos_timeout [some ⟨1/2⟩] 3 0).2 (by norm_num) rfl⟩

/-- A Python `float`, distinguishing NaN: `ib_async.Ticker.marketPrice()`
returns `nan` (never `None`) when no market data is available. -/
inductive PyFloat where
  | nan
  | val (q : ℚ)
deriving DecidableEq

/-- Python float subtraction: NaN propagates. -/
def PyFloat.sub : PyFloat → PyFloat → PyFloat
  | .nan, _ => .nan
  | _, .nan => .nan
  | .val a, .val b => .val (a - b)

/-- Python float `%` (positive modulus): NaN propagates. -/
def PyFloat.mod : PyFloat → PyFloat → PyFloat
  | .nan, _ => .nan
  | _, .nan => .nan
  | .val a, .val b => .val (pymod a b)

/-- The spot-guard phase of `PutVerticalBuilder.build` (`options/spread.py`
lines 176-188): `if spot is None: log error; return None, None`, otherwise
proceed to put-strike generation
`[spot - spot % inc - i * inc for i in range(strikes_down)]`.  The result is
`none` for the soft-fail path and `some strikes` when strike generation runs. -/
def buildSpotPhase (spot : Option PyFloat) (inc : ℚ) (strikes_down : ℕ) :
    Option (List PyFloat) :=
  match spot with
  | none => none
  | some s =>
      some ((List.range strikes_down).map
        (fun i : ℕ => (s.sub (s.mod (.val inc))).sub (.val ((i : ℚ) * inc))))

/-- Claim C4 fails on the code: the guard is `spot is None`, but
`marketPrice()` yields NaN — not `None` — when the price is unavailable, so a
NaN spot is not caught: `build` proceeds to strike generation and produces 20
NaN strikes instead of returning (no legs).  Only a literal `None` spot takes
the soft-fail path. -/
theorem build_does_not_catch_nan_spot :
    buildSpotPhase (some .nan) 5 20 = some (List.replicate 20 .nan) ∧
    buildSpotPhase none 5 20 = none := by
  constructor
  · rfl
  · rfl

/-- Modelled from the spec: `SpreadExecutionLoop` is absent from `src/`
(spec section 4.7 is its only description).  The oracle supplies, for the
`i`-th loop iteration, the wall-clock time consumed by the rebuild +
fill-attempt and its outcome (a trade, identified by its fill price, or
`none`). -/
structure AttemptOracle where
  duration : ℕ → ℚ
  result : ℕ → Option ℚ

/-- Modelled from the spec: the body of `SpreadExecutionLoop.buy` — at the top
of each iteration, if the deadline has passed, stop with `none`; otherwise run
one rebuild + fill attempt (which always runs to completion, consuming
`orc.duration i` time) and return its trade if any, else loop.  Returns the
outcome and the list of start times of the attempts that were placed; `fuel`
bounds the recursion. -/
def buyLoop (deadline : ℚ) (orc : AttemptOracle) :
    ℕ → ℚ → ℕ → Option ℚ × List ℚ
  | 0, _, _ => (none, [])
  | f + 1, now, i =>
      if deadline < now then (none, [])
      else
        match orc.result i with
        | some tr => (some tr, [now])
        | none =>
            let rest := buyLoop deadline orc f (now + orc.duration i) (i + 1)
            (rest.1, now :: rest.2)

/-- Modelled from the spec: `SpreadExecutionLoop.buy(deadline_duration)`
computes the absolute deadline `now + deadline_duration` and runs the loop
from clock value `t0`. -/
def spreadBuy (t0 deadlineDuration : ℚ) (orc : AttemptOracle) (fuel : ℕ) :
    Option ℚ × List ℚ :=
  buyLoop (t0 + deadlineDuration) orc fuel t0 0

theorem buyLoop_starts_le_deadline (deadline : ℚ) (orc : AttemptOracle) :
    ∀ (fuel : ℕ) (now : ℚ) (i : ℕ),
      ∀ s ∈ (buyLoop deadline orc fuel now i).2, s ≤ deadline := by
  intro fuel
  induction fuel with
  | zero =>
    intro now i s hs
    exact absurd hs (List.not_mem_nil s)
  | succ f ih =>
    intro now i s hs
    rw [buyLoop] at hs
    by_cases hd : deadline < now
    · rw [if_pos hd] at hs
      exact absurd hs (List.not_mem_nil s)
    · rw [if_neg hd] at hs
      cases hr : orc.result i with
      | some tr =>
        rw [hr] at hs
        rcases List.mem_singleton.mp hs with rfl
        exact le_of_not_lt hd
      | none =>
        rw [hr] at hs
        rcases List.mem_cons.mp hs with rfl | hs2
        · exact le_of_not_lt hd
        · exact ih (now + orc.duration i) (i + 1) s hs2

/-- Claim C7 (spec-modelled): no order attempt is ever placed after the
absolute deadline `t0 + deadline_duration` — expiry is checked at the top of
each iteration — while an attempt started on or before the deadline runs to
completion and its trade is returned, regardless of how long it takes. -/
theorem spread_execution_loop_deadline (t0 d : ℚ) (orc : AttemptOracle) :
    (∀ fuel, ∀ s ∈ (spreadBuy t0 d orc fuel).2, s ≤ t0 + d) ∧
    (∀ (fuel : ℕ) (now : ℚ) (i : ℕ) (tr : ℚ), now ≤ t0 + d →
      orc.result i = some tr →
      buyLoop (t0 + d) orc (fuel + 1) now i = (some tr, [now])) := by
  constructor
  · intro fuel
    exact buyLoop_starts_le_deadline (t0 + d) orc fuel t0 0
  · intro fuel now i tr hle hres
    rw [buyLoop, if_neg (not_lt.mpr hle), hres]

/-- Witness for `spread_execution_loop_deadline`: deadline window `[0, 10]`,
attempts taking 7 time units each, failing at iteration 0 and succeeding at
iteration 1 — the first attempt starts at time 0 (within the deadline), and
the second, started at time 7, completes and returns its trade even though it
finishes at 14, past the deadline. -/
theorem spread_execution_loop_deadline_witness :
    (0 : ℚ) ∈
      (spreadBuy 0 10 ⟨fun _ => 7, fun i => if i = 1 then some 5 else none⟩ 1).2 ∧
    (0 : ℚ) ≤ 0 + 10 ∧
    buyLoop (0 + 10) ⟨fun _ => 7, fun i => if i = 1 then some 5 else none⟩ 1 7 1 =
      (some 5, [7]) := by
  have hmem : (0 : ℚ) ∈
      (spreadBuy 0 10 ⟨fun _ => 7, fun i => if i = 1 then some 5 else none⟩ 1).2 := by
    norm_num [spreadBuy, buyLoop]
  refine ⟨hmem, ?_, ?_⟩
  · exact (spread_execution_loop_deadline 0 10
      ⟨fun _ => 7, fun i => if i = 1 then some 5 else none⟩).1 1 0 hmem
  · exact (spread_execution_loop_deadline 0 10
      ⟨fun _ => 7, fun i => if i = 1 then some 5 else none⟩).2 0 7 1 5 (by norm_num) rfl

/-- Python `str.split(sep)` for a one-character separator: the empty string
yields `[""]`, consecutive separators yield empty fields.  Python `str` is
modelled as `List Char`. -/
def pySplit (sep : Char) : List Char → List (List Char)
  | [] => [[]]
  | c :: rest =>
      match pySplit sep rest with
      | [] => [[]]
      | fld :: flds => if c = sep then [] :: fld :: flds else (c :: fld) :: flds

/-- Python `str.split(sep, 1)`: split at the first separator only; one field
when the separator is absent, two otherwise. -/
def pySplit1 (sep : Char) : List Char → List (List Char)
  | [] => [[]]
  | c :: rest =>
      if c = sep then [[], rest]
      else
        match pySplit1 sep rest with
        | [] => [[c]]
        | fld :: flds => (c :: fld) :: flds

/-- Python `int(s)` on the digit substrings produced by the hours parser:
`none` models the `ValueError` on an empty or non-digit string. -/
def pyIntOfDigits (s : List Char) : Option ℕ :=
  if s = [] then none
  else if s.all (fun c => c.isDigit) then
    some (s.foldl (fun n c => 10 * n + (c.toNat - 48)) 0)
  else none

/-- Python slice `s[a:b]` for `a ≤ b` (shorter result when `s` is short). -/
def pySlice (s : List Char) (a b : ℕ) : List Char := (s.drop a).take (b - a)

/-- An aware `datetime` as built by `_parse_hours`: date, wall-clock time and
the `ZoneInfo` key it was constructed with. -/
structure PyDateTime where
  year : ℕ
  month : ℕ
  day : ℕ
  hour : ℕ
  minute : ℕ
  tz : List Char
deriving DecidableEq

/-- Length of a month, as `datetime` validates it (Gregorian, with leap
years). -/
def daysInMonth (y m : ℕ) : ℕ :=
  if m = 2 then
    if (y % 4 = 0 ∧ y % 100 ≠ 0) ∨ y % 400 = 0 then 29 else 28
  else if m = 4 ∨ m = 6 ∨ m = 9 ∨ m = 11 then 30 else 31

/-- `datetime(year, month, day, hour, minute, tzinfo=tz)`: `none` models the
`ValueError` raised on out-of-range components. -/
def mkDateTime (y mo d h mi : ℕ) (tz : List Char) : Option PyDateTime :=
  if 1 ≤ y ∧ y ≤ 9999 ∧ 1 ≤ mo ∧ mo ≤ 12 ∧ 1 ≤ d ∧ d ≤ daysInMonth y mo ∧
      h ≤ 23 ∧ mi ≤ 59 then
    some ⟨y, mo, d, h, mi, tz⟩
  else none

/-- `Option` to `Except Unit`, the error modelling a raised `ValueError`. -/
def toExcept : Option α → Except Unit α
  | some a => .ok a
  | none => .error ()

/-- One `HHMM-HHMM` session of `MarketDataTypeManager._parse_hours`
(`core/market_data.py` lines 99-112):
`start_hm, end_hm = session.split("-", 1)` (raising when no `-` is present),
then two `datetime`s from integer slices of the date and time strings. -/
def parseSession (datePart tz session : List Char) :
    Except Unit (PyDateTime × PyDateTime) :=
  match pySplit1 '-' session with
  | [startHM, endHM] => do
      let y ← toExcept (pyIntOfDigits (pySlice datePart 0 4))
      let mo ← toExcept (pyIntOfDigits (pySlice datePart 4 6))
      let d ← toExcept (pyIntOfDigits (pySlice datePart 6 8))
      let sh ← toExcept (pyIntOfDigits (pySlice startHM 0 2))
      let sm ← toExcept (pyIntOfDigits (pySlice startHM 2 4))
      let eh ← toExcept (pyIntOfDigits (pySlice endHM 0 2))
      let em ← toExcept (pyIntOfDigits (pySlice endHM 2 4))
      let sdt ← toExcept (mkDateTime y mo d sh sm tz)
      let edt ← toExcept (mkDateTime y mo d eh em tz)
      .ok (sdt, edt)
  | _ => .error ()

/-- The `for session in sess_part.split(",")` loop body of `_parse_hours`:
one interval per session, in order, aborting (raising) at the first bad
session. -/
def parseSessionsList (datePart tz : List Char) :
    List (List Char) → Except Unit (List (PyDateTime × PyDateTime))
  | [] => .ok []
  | t :: rest =>
      match parseSession datePart tz t with
      | .error e => .error e
      | .ok iv =>
          match parseSessionsList datePart tz rest with
          | .error e => .error e
          | .ok ivs => .ok (iv :: ivs)

/-- The `for session in sess_part.split(",")` loop of `_parse_hours`. -/
def parseSessions (datePart tz sessPart : List Char) :
    Except Unit (List (PyDateTime × PyDateTime)) :=
  parseSessionsList datePart tz (pySplit ',' sessPart)

/-- The `for dayseg in hours_str.split(";")` loop of `_parse_hours`
(`core/market_data.py` lines 89-114), with `acc` playing the role of the
`intervals` accumulator: empty segments are skipped; a segment without a
colon raises (tuple-unpacking `ValueError`); segments for another date are
skipped; a `CLOSED` segment for today returns `[]` immediately, discarding
the accumulator and the remaining segments. -/
def parseHoursGo (day tz : List Char) :
    List (List Char) → List (PyDateTime × PyDateTime) →
    Except Unit (List (PyDateTime × PyDateTime))
  | [], acc => .ok acc
  | seg :: rest, acc =>
      if seg = [] then parseHoursGo day tz rest acc
      else
        match pySplit1 ':' seg with
        | [datePart, sessPart] =>
            if datePart ≠ day then parseHoursGo day tz rest acc
            else if sessPart = "CLOSED".toList then .ok []
            else
              match parseSessions datePart tz sessPart with
              | .error e => .error e
              | .ok ivs => parseHoursGo day tz rest (acc ++ ivs)
        | _ => .error ()

/-- `MarketDataTypeManager._parse_hours(hours_str, tz, day_yyyymmdd)`
(`core/market_data.py` lines 80-114). -/
def parse_hours (hoursStr tz day : List Char) :
    Except Unit (List (PyDateTime × PyDateTime)) :=
  parseHoursGo day tz (pySplit ';' hoursStr) []

/-- Shape of one well-formed `HHMM-HHMM` session string: its text splits at
the first `-` into two time strings whose 2-character slices parse as the
given in-range hour/minute numbers. -/
structure SessionShape where
  text : List Char
  startHM : List Char
  endHM : List Char
  sh : ℕ
  sm : ℕ
  eh : ℕ
  em : ℕ

/-- Well-formedness of a `SessionShape` against the parser's reading. -/
def SessionShape.WF (x : SessionShape) : Prop :=
  pySplit1 '-' x.text = [x.startHM, x.endHM] ∧
  pyIntOfDigits (pySlice x.startHM 0 2) = some x.sh ∧
  pyIntOfDigits (pySlice x.startHM 2 4) = some x.sm ∧
  pyIntOfDigits (pySlice x.endHM 0 2) = some x.eh ∧
  pyIntOfDigits (pySlice x.endHM 2 4) = some x.em ∧
  x.sh ≤ 23 ∧ x.sm ≤ 59 ∧ x.eh ≤ 23 ∧ x.em ≤ 59

/-- The interval a well-formed session denotes on date `y-mo-d` in `tz`. -/
def SessionShape.interval (x : SessionShape) (y mo d : ℕ) (tz : List Char) :
    PyDateTime × PyDateTime :=
  (⟨y, mo, d, x.sh, x.sm, tz⟩, ⟨y, mo, d, x.eh, x.em, tz⟩)

/-- The `YYYYMMDD` day string reads as the given valid calendar date. -/
def DateShape (day : List Char) (y mo d : ℕ) : Prop :=
  pyIntOfDigits (pySlice day 0 4) = some y ∧
  pyIntOfDigits (pySlice day 4 6) = some mo ∧
  pyIntOfDigits (pySlice day 6 8) = some d ∧
  1 ≤ y ∧ y ≤ 9999 ∧ 1 ≤ mo ∧ mo ≤ 12 ∧ 1 ≤ d ∧ d ≤ daysInMonth y mo

/-- A segment the day loop of `_parse_hours` passes over without effect:
empty, or carrying a date other than today. -/
def SkippableSeg (day seg : List Char) : Prop :=
  seg = [] ∨ ∃ dp sp, pySplit1 ':' seg = [dp, sp] ∧ dp ≠ day

/-- A today segment the day loop consumes without raising: `CLOSED`, or
sessions that all parse. -/
def TodayOkSeg (day tz seg : List Char) : Prop :=
  ∃ sp, pySplit1 ':' seg = [day, sp] ∧
    (sp = "CLOSED".toList ∨ ∃ ivs, parseSessions day tz sp = .ok ivs)

theorem except_ok_bind {α β : Type} (a : α) (f : α → Except Unit β) :
    (Except.ok a >>= f) = f a := rfl

theorem parseSession_ok (day tz : List Char) {y mo d : ℕ} (x : SessionShape)
    (hx : x.WF) (hd : DateShape day y mo d) :
    parseSession day tz x.text = .ok (x.interval y mo d tz) := by
  obtain ⟨hsplit, h1, h2, h3, h4, hb1, hb2, hb3, hb4⟩ := hx
  obtain ⟨hy, hmo, hdd, hr1, hr2, hr3, hr4, hr5, hr6⟩ := hd
  have hmk1 : mkDateTime y mo d x.sh x.sm tz = some ⟨y, mo, d, x.sh, x.sm, tz⟩ := by
    rw [mkDateTime, if_pos ⟨hr1, hr2, hr3, hr4, hr5, hr6, hb1, hb2⟩]
  have hmk2 : mkDateTime y mo d x.eh x.em tz = some ⟨y, mo, d, x.eh, x.em, tz⟩ := by
    rw [mkDateTime, if_pos ⟨hr1, hr2, hr3, hr4, hr5, hr6, hb3, hb4⟩]
  rw [parseSession, hsplit]
  simp only [hy, hmo, hdd, h1, h2, h3, h4, toExcept, except_ok_bind, hmk1, hmk2]
  rfl

theorem parseSessionsList_ok (day tz : List Char) {y mo d : ℕ}
    (hd : DateShape day y mo d) :
    ∀ xs : List SessionShape, (∀ x ∈ xs, x.WF) →
      parseSessionsList day tz (xs.map (fun x => x.text)) =
        .ok (xs.map (fun x => x.interval y mo d tz)) := by
  intro xs
  induction xs with
  | nil => intro _; rfl
  | cons x xs ih =>
    intro hwf
    rw [List.map_cons, parseSessionsList,
      parseSession_ok day tz x (hwf x (List.mem_cons_self x xs)) hd,
      ih (fun u hu => hwf u (List.mem_cons_of_mem x hu))]
    rfl

theorem parseSessions_ok (day tz : List Char) {y mo d : ℕ}
    (hd : DateShape day y mo d) (xs : List SessionShape) (sessPart : List Char)
    (hsplit : pySplit ',' sessPart = xs.map (fun x => x.text))
    (hwf : ∀ x ∈ xs, x.WF) :
    parseSessions day tz sessPart = .ok (xs.map (fun x => x.interval y mo d tz)) := by
  rw [parseSessions, hsplit]
  exact parseSessionsList_ok day tz hd xs hwf

theorem skippable_seg_ne_nil {seg dp sp : List Char}
    (hsp : pySplit1 ':' seg = [dp, sp]) : seg ≠ [] := by
  intro h
  subst h
  simp [pySplit1] at hsp

theorem parseHoursGo_skip (day tz : List Char) :
    ∀ pre : List (List Char), (∀ seg ∈ pre, SkippableSeg day seg) →
      ∀ (l : List (List Char)) (acc : List (PyDateTime × PyDateTime)),
        parseHoursGo day tz (pre ++ l) acc = parseHoursGo day tz l acc := by
  intro pre
  induction pre with
  | nil => intro _ l acc; rfl
  | cons seg pre ih =>
    intro h l acc
    have hpre := fun u hu => h u (List.mem_cons_of_mem seg hu)
    rcases h seg (List.mem_cons_self seg pre) with rfl | ⟨dp, sp, hsp, hne⟩
    · rw [List.cons_append, parseHoursGo, if_pos rfl]
      exact ih hpre l acc
    · have hnil := skippable_seg_ne_nil hsp
      rw [List.cons_append, parseHoursGo, if_neg hnil, hsp]
      simp only [if_pos hne]
      exact ih hpre l acc

theorem parseHoursGo_skipall (day tz : List Char)
    (segs : List (List Char)) (h : ∀ seg ∈ segs, SkippableSeg day seg)
    (acc : List (PyDateTime × PyDateTime)) :
    parseHoursGo day tz segs acc = .ok acc := by
  have := parseHoursGo_skip day tz segs h [] acc
  rw [List.append_nil] at this
  rw [this]
  rfl

theorem parseHoursGo_today (day tz : List Char) (tseg sessPart : List Char)
    (hts : pySplit1 ':' tseg = [day, sessPart])
    (hnc : sessPart ≠ "CLOSED".toList)
    (ivs : List (PyDateTime × PyDateTime))
    (hsess : parseSessions day tz sessPart = .ok ivs)
    (post : List (List Char)) (acc : List (PyDateTime × PyDateTime)) :
    parseHoursGo day tz (tseg :: post) acc = parseHoursGo day tz post (acc ++ ivs) := by
  have hnil := skippable_seg_ne_nil hts
  rw [parseHoursGo, if_neg hnil, hts]
  simp only [if_neg (fun hh : day ≠ day => hh rfl), if_neg hnc, hsess]

theorem parseHoursGo_closed (day tz tseg : List Char)
    (hts : pySplit1 ':' tseg = [day, "CLOSED".toList]) :
    ∀ pre : List (List Char),
      (∀ seg ∈ pre, SkippableSeg day seg ∨ TodayOkSeg day tz seg) →
      ∀ (post : List (List Char)) (acc : List (PyDateTime × PyDateTime)),
        parseHoursGo day tz (pre ++ tseg :: post) acc = .ok [] := by
  have hnil := skippable_seg_ne_nil hts
  intro pre
  induction pre with
  | nil =>
    intro _ post acc
    rw [List.nil_append, parseHoursGo, if_neg hnil, hts]
    simp only [if_neg (fun hh : day ≠ day => hh rfl), if_pos rfl]
    rfl
  | cons seg pre ih =>
    intro h post acc
    have hpre := fun u hu => h u (List.mem_cons_of_mem seg hu)
    rcases h seg (List.mem_cons_self seg pre) with hskip | ⟨sp, hsp, hcase⟩
    · rcases hskip with rfl | ⟨dp, sp, hsp, hne⟩
      · rw [List.cons_append, parseHoursGo, if_pos rfl]
        exact ih hpre post acc
      · rw [List.cons_append, parseHoursGo, if_neg (skippable_seg_ne_nil hsp), hsp]
        simp only [if_pos hne]
        exact ih hpre post acc
    · rw [List.cons_append, parseHoursGo, if_neg (skippable_seg_ne_nil hsp), hsp]
      simp only [if_neg (fun hh : day ≠ day => hh rfl)]
      by_cases hc : sp = "CLOSED".toList
      · simp only [if_pos hc]
      · simp only [if_neg hc]
        rcases hcase with hc2 | ⟨ivs, hivs⟩
        · exact absurd hc2 hc
        · rw [hivs]
          exact ih hpre post (acc ++ ivs)

/-- Claim C5: (i) for every hours text whose today segment is
non-`CLOSED` with well-formed comma-separated `HHMM-HHMM` sessions, and whose
other segments are empty or dated differently, `_parse_hours` returns exactly
one interval per session, each bounding its start/end pair on today's date
with the given timezone, in order; (ii) a `CLOSED` segment for today yields
`[]` regardless of the segments around it (those before it merely must not
raise, those after it are arbitrary); (iii) segments whose date is not today
contribute nothing: if no segment is today's the result is empty. -/
theorem parse_hours_sessions_closed_other_days (tz day : List Char) :
    (∀ (hoursStr : List Char) (pre post : List (List Char))
        (tseg sessPart : List Char) (xs : List SessionShape) (y mo d : ℕ),
        pySplit ';' hoursStr = pre ++ tseg :: post →
        (∀ seg ∈ pre, SkippableSeg day seg) →
        (∀ seg ∈ post, SkippableSeg day seg) →
        pySplit1 ':' tseg = [day, sessPart] →
        sessPart ≠ "CLOSED".toList →
        pySplit ',' sessPart = xs.map (fun x => x.text) →
        (∀ x ∈ xs, x.WF) →
        DateShape day y mo d →
        parse_hours hoursStr tz day =
          .ok (xs.map (fun x => x.interval y mo d tz))) ∧
    (∀ (hoursStr : List Char) (pre post : List (List Char)) (tseg : List Char),
        pySplit ';' hoursStr = pre ++ tseg :: post →
        (∀ seg ∈ pre, SkippableSeg day seg ∨ TodayOkSeg day tz seg) →
        pySplit1 ':' tseg = [day, "CLOSED".toList] →
        parse_hours hoursStr tz day = .ok []) ∧
    (∀ hoursStr : List Char,
        (∀ seg ∈ pySplit ';' hoursStr, SkippableSeg day seg) →
        parse_hours hoursStr tz day = .ok []) := by
  refine ⟨?_, ?_, ?_⟩
  · intro hoursStr pre post tseg sessPart xs y mo d hsegs hpre hpost hts hnc hsp hwf hd
    rw [parse_hours, hsegs, parseHoursGo_skip day tz pre hpre,
      parseHoursGo_today day tz tseg sessPart hts hnc _
        (parseSessions_ok day tz hd xs sessPart hsp hwf) post [],
      List.nil_append]
    exact parseHoursGo_skipall day tz post hpost _
  · intro hoursStr pre post tseg hsegs hpre hts
    rw [parse_hours, hsegs]
    exact parseHoursGo_closed day tz tseg hts pre hpre post []
  · intro hoursStr h
    exact parseHoursGo_skipall day tz _ h []

instance (x : SessionShape) : Decidable x.WF := by
  unfold SessionShape.WF
  infer_instance

instance (day : List Char) (y mo d : ℕ) : Decidable (DateShape day y mo d) := by
  unfold DateShape
  infer_instance

/-- Witness for `parse_hours_sessions_closed_other_days`, exercising all three
parts on IB-format texts for today = 2025-01-02: a two-session today segment
flanked by other days; a today `CLOSED` segment preceded by a today session
segment and followed by garbage; a text with no today segment. -/
theorem parse_hours_sessions_closed_other_days_witness :
    parse_hours "20250101:CLOSED;20250102:0930-1600,1700-2000;20250103:0930-1600".toList
        "America/New_York".toList "20250102".toList =
      .ok [(⟨2025, 1, 2, 9, 30, "America/New_York".toList⟩,
            ⟨2025, 1, 2, 16, 0, "America/New_York".toList⟩),
           (⟨2025, 1, 2, 17, 0, "America/New_York".toList⟩,
            ⟨2025, 1, 2, 20, 0, "America/New_York".toList⟩)] ∧
    parse_hours "20250102:0930-1600;20250102:CLOSED;junk".toList
        "America/New_York".toList "20250102".toList = .ok [] ∧
    parse_hours "20250101:0930-1600".toList
        "America/New_York".toList "20250102".toList = .ok [] := by
  have h := parse_hours_sessions_closed_other_days "America/New_York".toList
    "20250102".toList
  refine ⟨?_, ?_, ?_⟩
  · exact h.1 _ ["20250101:CLOSED".toList] ["20250103:0930-1600".toList]
      "20250102:0930-1600,1700-2000".toList "0930-1600,1700-2000".toList
      [⟨"0930-1600".toList, "0930".toList, "1600".toList, 9, 30, 16, 0⟩,
       ⟨"1700-2000".toList, "1700".toList, "2000".toList, 17, 0, 20, 0⟩]
      2025 1 2
      (by decide)
      (by
        intro seg hseg
        rw [List.mem_singleton] at hseg
        subst hseg
        exact Or.inr ⟨"20250101".toList, "CLOSED".toList, by decide, by decide⟩)
      (by
        intro seg hseg
        rw [List.mem_singleton] at hseg
        subst hseg
        exact Or.inr ⟨"20250103".toList, "0930-1600".toList, by decide, by decide⟩)
      (by decide) (by decide) (by decide) (by decide) (by decide)
  · exact h.2.1 _ ["20250102:0930-1600".toList] ["junk".toList]
      "20250102:CLOSED".toList
      (by decide)
      (by
        intro seg hseg
        rw [List.mem_singleton] at hseg
        subst hseg
        exact Or.inr ⟨"0930-1600".toList, by decide,
          Or.inr ⟨[(⟨2025, 1, 2, 9, 30, "America/New_York".toList⟩,
                    ⟨2025, 1, 2, 16, 0, "America/New_York".toList⟩)], by decide⟩⟩)
      (by decide)
  · exact h.2.2 _
      (by
        intro seg hseg
        rw [show pySplit ';' "20250101:0930-1600".toList =
          ["20250101:0930-1600".toList] from by decide, List.mem_singleton] at hseg
        subst hseg
        exact Or.inr ⟨"20250101".toList, "0930-1600".toList, by decide, by decide⟩)

end Spox
